import Mathlib

/-!
Verification of the PolicyAsCodeMaintenance commit-classification and
co-change rule-mining pipeline.

The Python sources are shallowly embedded as Lean definitions:
dictionaries become association lists (insertion ordered, as in CPython),
Python floats become `ℚ`, fallible code returns `Option`, and the
per-file/per-commit loops become structural recursions or folds that
mirror the loop order.
-/

namespace PaCM

/-! ## Data model: change records and commits (`modules/pac_analyzer.py`)

A change record is the dict
`{'file', 'additions', 'deletions', 'total_changes', 'status'}` built in
`git_controller.get_commit_changes`; `status` is `None` or one of the
pygit2 delta codes 1=added, 2=deleted, 3=modified, 4=renamed, 5=copied. -/

structure Change where
  file : String
  additions : Nat
  deletions : Nat
  total_changes : Nat
  status : Option Nat
deriving DecidableEq, Repr

/-- The `Commit` class of `pac_analyzer.py`: created by `parse_commits`
with empty `pac_changes`/`other_changes`, which are then populated once by
`count_pac_changes_from_commits`. -/
structure Commit where
  commit_id : String
  author : String
  author_email : String
  message : String
  date : Option Int
  files : List String
  changes : List Change
  pac_changes : List Change
  other_changes : List Change
deriving DecidableEq, Repr

/-- One value of the `commit_changes` dict handed to `parse_commits`
(the per-commit dict built by `git_controller.get_commit_changes`). -/
structure CommitInfo where
  author : String
  author_email : String
  message : String
  date : Option Int
  files : List String
  changes : List Change
deriving DecidableEq, Repr

/-- Python `PacAnalyzer.is_pac_file`: membership of `(repo_id, path)` in the
loaded registry DataFrame, an exact match on both columns. -/
def is_pac_file (pacFiles : List (Int × String)) (repoId : Int) (filePath : String) : Bool :=
  pacFiles.any (fun row => row.1 = repoId ∧ row.2 = filePath)

/-- Python `PacAnalyzer.parse_commits`: each `(commit_id, info)` dict entry becomes a
`Commit` shell with empty classification fields. -/
def parse_commits (commitChanges : List (String × CommitInfo)) : List Commit :=
  commitChanges.map (fun p =>
    { commit_id := p.1
      author := p.2.author
      author_email := p.2.author_email
      message := p.2.message
      date := p.2.date
      files := p.2.files
      changes := p.2.changes
      pac_changes := []
      other_changes := [] })

/-- The dict comprehension `{change['file']: change for change in commit.changes}`:
a later record with the same `file` key overwrites an earlier one, so a lookup
returns the last matching record. -/
def changeMapLookup (changes : List Change) (filePath : String) : Option Change :=
  (changes.filter (fun ch => ch.file = filePath)).getLast?

/-- First loop of `count_pac_changes_from_commits`: the PaC-side records of one
commit.  A PaC file is kept only when it has a change record whose status is
not 1 (added) and not 2 (deleted); a PaC file with no change record is
skipped. -/
def pacFilesInCommit (pacFiles : List (Int × String)) (repoId : Int) (c : Commit) :
    List Change :=
  c.files.filterMap (fun filePath =>
    if is_pac_file pacFiles repoId filePath then
      match changeMapLookup c.changes filePath with
      | some changeInfo =>
        if changeInfo.status = some 1 ∨ changeInfo.status = some 2 then none
        else some { file := filePath
                    additions := changeInfo.additions
                    deletions := changeInfo.deletions
                    total_changes := changeInfo.total_changes
                    status := changeInfo.status }
      | none => none
    else none)

/-- Second loop of `count_pac_changes_from_commits`: the non-PaC records.
A non-PaC file with a change record of status 1 or 2 is skipped; with another
status the default `file_info` dict is overwritten wholesale by
`file_info.update(change_map[file_path])`, so the record itself is kept;
a non-PaC file with no change record keeps the default record
`{'file': path, 'additions': 0, 'deletions': 0, 'total_changes': 0, 'status': None}`. -/
def otherChangesInCommit (pacFiles : List (Int × String)) (repoId : Int) (c : Commit) :
    List Change :=
  c.files.filterMap (fun filePath =>
    if is_pac_file pacFiles repoId filePath then none
    else
      match changeMapLookup c.changes filePath with
      | some changeInfo =>
        if changeInfo.status = some 1 ∨ changeInfo.status = some 2 then none
        else some changeInfo
      | none => some { file := filePath
                       additions := 0
                       deletions := 0
                       total_changes := 0
                       status := none })

/-- The per-commit mutation `commit.pac_changes = ...; commit.other_changes = ...`
performed inside the loop of `count_pac_changes_from_commits`. -/
def classifyCommit (pacFiles : List (Int × String)) (repoId : Int) (c : Commit) : Commit :=
  { c with
    pac_changes := pacFilesInCommit pacFiles repoId c
    other_changes := otherChangesInCommit pacFiles repoId c }

/-- CPython dict insertion `d[k] = v`: an existing key keeps its position and
gets the new value, a new key is appended. -/
def dictInsert (d : List (String × List Change)) (k : String) (v : List Change) :
    List (String × List Change) :=
  if d.any (fun p => p.1 = k) then
    d.map (fun p => if p.1 = k then (p.1, v) else p)
  else d ++ [(k, v)]

/-- The commit loop of `count_pac_changes_from_commits`, with the running
count, the `pac_commits` dict and the list of already-classified commits as
accumulators. -/
def countPacLoop (pacFiles : List (Int × String)) (repoId : Int) :
    List Commit → Nat → List (String × List Change) → List Commit →
    Nat × List (String × List Change) × List Commit
  | [], count, pacCommits, done => (count, pacCommits, done)
  | c :: rest, count, pacCommits, done =>
    let c2 := classifyCommit pacFiles repoId c
    if c2.pac_changes ≠ [] then
      countPacLoop pacFiles repoId rest (count + c2.pac_changes.length)
        (dictInsert pacCommits c2.commit_id c2.pac_changes) (done ++ [c2])
    else
      countPacLoop pacFiles repoId rest count pacCommits (done ++ [c2])

/-- Python `PacAnalyzer.count_pac_changes_from_commits`.  Besides the returned pair
`(pac_changes_count, pac_commits)` the Python code mutates the commit objects
in place; the third component is that list of classified commits. -/
def count_pac_changes_from_commits (pacFiles : List (Int × String)) (repoId : Int)
    (commits : List Commit) : Nat × List (String × List Change) × List Commit :=
  countPacLoop pacFiles repoId commits 0 [] []

/-- The `statistics` sub-dict of an analysis result. -/
structure Statistics where
  total_added_lines : Nat
  total_deleted_lines : Nat
  total_modified_lines : Nat
  pac_added_lines : Nat
  pac_deleted_lines : Nat
  pac_modified_lines : Nat
deriving DecidableEq, Repr

/-- The result dict of `PacAnalyzer.analyze_repository`. -/
structure AnalysisResult where
  repository_id : Int
  project_name : Option String
  repository_name : String
  owner_name : String
  total_commits : Nat
  pac_changes_count : Nat
  pac_commits_count : Nat
  pac_change_ratio : ℚ
  commits : List Commit
  statistics : Statistics
deriving DecidableEq, Repr

/-- Python `PacAnalyzer.analyze_repository`.  When `project_name` is `None` or has no
`'/'`, the Python code leaves `repo_name` unbound and building the result dict
raises `NameError`; that error path is `none` here. -/
def analyze_repository (pacFiles : List (Int × String)) (repoId : Int)
    (commitChanges : List (String × CommitInfo)) (projectName : Option String) :
    Option AnalysisResult :=
  let totalCommits := commitChanges.length
  let commits := parse_commits commitChanges
  let res := count_pac_changes_from_commits pacFiles repoId commits
  let pacChangesCount := res.1
  let pacCommits := res.2.1
  let classified := res.2.2
  let totalAdded := (classified.map (fun c => (c.changes.map (·.additions)).sum)).sum
  let totalDeleted := (classified.map (fun c => (c.changes.map (·.deletions)).sum)).sum
  let pacAdded := (pacCommits.map (fun p => (p.2.map (·.additions)).sum)).sum
  let pacDeleted := (pacCommits.map (fun p => (p.2.map (·.deletions)).sum)).sum
  match projectName with
  | some pn =>
    if pn ≠ "" ∧ pn.toList.contains '/' then
      some
        { repository_id := repoId
          project_name := some pn
          repository_name := ((pn.toList.splitOn '/').map List.asString).getD 1 ""
          owner_name := ((pn.toList.splitOn '/').map List.asString).getD 0 ""
          total_commits := totalCommits
          pac_changes_count := pacChangesCount
          pac_commits_count := pacCommits.length
          pac_change_ratio :=
            if 0 < totalCommits then (pacChangesCount : ℚ) / (totalCommits : ℚ) else 0
          commits := classified
          statistics :=
            { total_added_lines := totalAdded
              total_deleted_lines := totalDeleted
              total_modified_lines := totalAdded + totalDeleted
              pac_added_lines := pacAdded
              pac_deleted_lines := pacDeleted
              pac_modified_lines := pacAdded + pacDeleted } }
    else none
  | none => none

/-! ## Root-commit tree walk (`modules/git_controller.py`)

For a commit with no parent, `get_commit_changes` walks the commit tree
recursively (`walk_tree`) and emits one change record per blob. -/

/-- A git blob as seen by `walk_tree`: `is_binary` is pygit2's binary flag,
`has_data` is `hasattr(blob, 'data')`, and `text` is
`blob.data.decode('utf-8', errors='ignore')` (decoding with
`errors='ignore'` never raises, so the decoded text always exists). -/
structure Blob where
  is_binary : Bool
  has_data : Bool
  text : String
deriving DecidableEq, Repr

/-- A git tree: a list of named entries, each a blob or a subtree. -/
inductive GitTree where
  | node : List (String × (Blob ⊕ GitTree)) → GitTree
deriving Repr

/-- The `lines` computed in `walk_tree` for one blob:
0 for a binary blob, else the `'\n'` count of the decoded data,
0 when there is no `data` attribute. -/
def blobAddedLines (b : Blob) : Nat :=
  if b.is_binary then 0
  else if b.has_data then b.text.toList.count '\n'
  else 0

/-- Python `walk_tree(tree_obj, prefix)` of `get_commit_changes`'s root-commit
branch, returning the sequence of change records it appends, in emission
order.  A subtree recurses with `prefix + entry.name + '/'`. -/
def walk_tree : GitTree → String → List Change
  | .node [], _ => []
  | .node ((name, .inl b) :: rest), pre =>
    { file := pre ++ name
      additions := blobAddedLines b
      deletions := 0
      total_changes := blobAddedLines b
      status := some 1 } :: walk_tree (.node rest) pre
  | .node ((name, .inr sub) :: rest), pre =>
    walk_tree sub (pre ++ name ++ "/") ++ walk_tree (.node rest) pre

/-- Spec-side counterpart for the refinement statement: the files reachable from a tree, as
`(full path, blob)` pairs, used to compare `walk_tree`'s output against the
"every file reachable from the commit's tree" wording. -/
def reachableFiles : GitTree → String → List (String × Blob)
  | .node [], _ => []
  | .node ((name, .inl b) :: rest), pre =>
    (pre ++ name, b) :: reachableFiles (.node rest) pre
  | .node ((name, .inr sub) :: rest), pre =>
    reachableFiles sub (pre ++ name ++ "/") ++ reachableFiles (.node rest) pre

/-! ## Cross-repository merge (`data_aggreagate.py`) -/

/-- One element of a result file's `repositories` list, restricted to the
fields the aggregation reads via `r.get(field, 0)` (a missing field counts
as 0, folded into the value here). -/
structure RepoEntry where
  total_commits : Nat
  pac_changes_count : Nat
  pac_commits_count : Nat
deriving DecidableEq, Repr

/-- One parsed JSON input of `aggregate_results`: whether the two required
top-level fields are present, and the value of `repositories` when it is. -/
structure ResultFile where
  name : String
  hasMetadata : Bool
  hasRepositories : Bool
  repositories : List RepoEntry
deriving DecidableEq, Repr

/-- Python `load_result_file`: an input missing `'metadata'` or `'repositories'`
is rejected with `None`. -/
def load_result_file (f : ResultFile) : Option ResultFile :=
  if f.hasMetadata ∧ f.hasRepositories then some f else none

/-- The aggregate produced by `aggregate_results`: the `metadata` fields the
claims concern plus the merged `repositories` list. -/
structure AggregateOutput where
  failed_files : List String
  total_source_files : Nat
  successful_files : Nat
  total_repositories : Nat
  total_commits : Nat
  total_pac_changes : Nat
  total_pac_commits : Nat
  pac_change_ratio : ℚ
  pac_commit_ratio : ℚ
  repositories : List RepoEntry
deriving DecidableEq, Repr

/-- The file loop of `aggregate_results`, accumulating merged repositories
and failed file names in input order. -/
def aggregateLoop : List ResultFile → List RepoEntry × List String →
    List RepoEntry × List String
  | [], acc => acc
  | f :: rest, acc =>
    match load_result_file f with
    | none => aggregateLoop rest (acc.1, acc.2 ++ [f.name])
    | some d => aggregateLoop rest (acc.1 ++ d.repositories, acc.2)

/-- Python `aggregate_results`: merge the valid inputs and recompute the summary
(ratios defined as 0 when `total_commits = 0`). -/
def aggregate_results (resultFiles : List ResultFile) : AggregateOutput :=
  let acc := aggregateLoop resultFiles ([], [])
  let aggregatedRepositories := acc.1
  let failedFiles := acc.2
  let totalCommits := (aggregatedRepositories.map (·.total_commits)).sum
  let totalPacChanges := (aggregatedRepositories.map (·.pac_changes_count)).sum
  let totalPacCommits := (aggregatedRepositories.map (·.pac_commits_count)).sum
  { failed_files := failedFiles
    total_source_files := resultFiles.length
    successful_files := resultFiles.length - failedFiles.length
    total_repositories := aggregatedRepositories.length
    total_commits := totalCommits
    total_pac_changes := totalPacChanges
    total_pac_commits := totalPacCommits
    pac_change_ratio :=
      if 0 < totalCommits then (totalPacChanges : ℚ) / (totalCommits : ℚ) else 0
    pac_commit_ratio :=
      if 0 < totalCommits then (totalPacCommits : ℚ) / (totalCommits : ℚ) else 0
    repositories := aggregatedRepositories }

/-! ## File-extension extraction (`cochanged_file_analysis.py`)

`extract_file_extension` relies on `pathlib.PurePosixPath.name`, `.stem` and
`.suffix`; those stdlib accessors are embedded here from their CPython
definitions (`name` = last path component after dropping empty and `'.'`
components; `suffix`/`stem` split `name` at the last `'.'` when that dot is
neither leading nor trailing). -/

/-- Python `str.split(sep)` for a one-character separator, on code points. -/
def splitOnChar : List Char → Char → List (List Char)
  | [], _ => [[]]
  | x :: xs, c =>
    match splitOnChar xs c with
    | [] => [[]]
    | h :: t => if x = c then [] :: h :: t else (x :: h) :: t

/-- Python `pathlib.PurePosixPath(p).name`: the last `'/'`-separated component,
with empty and `'.'` components dropped; `""` when no component remains. -/
def pyPathName (p : String) : String :=
  (((splitOnChar p.toList '/').filter (fun comp => comp ≠ [] ∧ comp ≠ ['.'])).getLast?.map
    List.asString).getD ""

/-- Python `name.rfind('.')`: the largest index of `'.'`, if any. -/
def lastDotIdx (cs : List Char) : Option Nat :=
  ((List.range cs.length).filter (fun i => cs.getD i ' ' = '.')).getLast?

/-- The `pathlib` `suffix`: `name[i:]` when `i = name.rfind('.')` satisfies
`0 < i < len(name) - 1`, else `""`. -/
def pySuffix (p : String) : String :=
  let cs := (pyPathName p).toList
  match lastDotIdx cs with
  | some i => if 0 < i ∧ i < cs.length - 1 then (cs.drop i).asString else ""
  | none => ""

/-- The `pathlib` `stem`: `name[:i]` under the same condition, else the whole
name. -/
def pyStem (p : String) : String :=
  let cs := (pyPathName p).toList
  match lastDotIdx cs with
  | some i => if 0 < i ∧ i < cs.length - 1 then (cs.take i).asString else cs.asString
  | none => cs.asString

/-- Python `str.lower()`, per code point. -/
def strLower (s : String) : String :=
  (s.toList.map Char.toLower).asString

/-- Python `str.endswith(t)`. -/
def pyEndsWith (s t : String) : Bool :=
  t.toList.isSuffixOf s.toList

/-- Python `extract_file_extension`: the lower-cased `suffix`, with `'.tar'`
prepended when the (unlowered) `stem` is truthy and ends with `'.tar'`, and
the sentinel `'no_extension'` when the resulting string is empty. -/
def extract_file_extension (filePath : String) : String :=
  let extension := strLower (pySuffix filePath)
  let extension2 :=
    if pyStem filePath ≠ "" ∧ pyEndsWith (pyStem filePath) ".tar" = true then
      ".tar" ++ extension
    else extension
  if extension2 ≠ "" then extension2 else "no_extension"

/-! ## Association-rule mining (`cochanged_file_analysis.py`) -/

/-- One element of `cochange_data` as produced by
`extract_cochanged_extensions`, restricted to the fields
`mine_association_rules` reads. -/
structure CochangeEntry where
  repository : String
  commit_id : String
  pac_extensions : List String
  other_extensions : List String
deriving DecidableEq, Repr

/-- A transaction item.  The Python code tags extension strings as
`f"pac:{ext}"` / `f"other:{ext}"`; since `"pac:" ++ e` and `"other:" ++ e`
are injective in `e` and never start with each other's tag, the tagged
strings are embedded as this two-constructor type, and
`str.startswith('pac:')` / `str.startswith('other:')` become the
constructor tests below. -/
inductive Item where
  | pacItem (ext : String)
  | otherItem (ext : String)
deriving DecidableEq, Repr

/-- The tagged string an `Item` stands for. -/
def Item.toStr : Item → String
  | .pacItem e => "pac:" ++ e
  | .otherItem e => "other:" ++ e

/-- Python `item.startswith('pac:')`. -/
def Item.isPacTag : Item → Bool
  | .pacItem _ => true
  | .otherItem _ => false

/-- Python `item.startswith('other:')`. -/
def Item.isOtherTag : Item → Bool
  | .pacItem _ => false
  | .otherItem _ => true

/-- The transaction set built for one qualifying entry: pac-tagged then
other-tagged extensions, as a duplicate-free list (Python uses `set`, whose
iteration order is unspecified; any fixed enumeration is a faithful
concretization). -/
def transactionOf (d : CochangeEntry) : List Item :=
  ((d.pac_extensions.map Item.pacItem) ++ (d.other_extensions.map Item.otherItem)).dedup

/-- The transaction database: one transaction per entry whose
`pac_extensions` and `other_extensions` are both non-empty. -/
def transactionsOf (cochangeData : List CochangeEntry) : List (List Item) :=
  (cochangeData.filter (fun d => d.pac_extensions ≠ [] ∧ d.other_extensions ≠ [])).map
    transactionOf

/-- The `collections.Counter` increment `counter[k] += 1` on an
insertion-ordered dict: an existing key keeps its position, a new key is
appended with count 1. -/
def counterAdd {α : Type} [DecidableEq α] (c : List (α × Nat)) (k : α) : List (α × Nat) :=
  if c.any (fun p => p.1 = k) then
    c.map (fun p => if p.1 = k then (p.1, p.2 + 1) else p)
  else c ++ [(k, 1)]

/-- A `Counter` built by incrementing over a sequence of keys. -/
def counterOf {α : Type} [DecidableEq α] (l : List α) : List (α × Nat) :=
  l.foldl counterAdd []

/-- Lookup `counter[k]` (0 for a missing key, as for `collections.Counter`). -/
def counterGet {α : Type} [DecidableEq α] (c : List (α × Nat)) (k : α) : Nat :=
  match c.find? (fun p => p.1 = k) with
  | some p => p.2
  | none => 0

/-- The double loop `for i ...: for j in range(i+1, ...)` over one
transaction's item list, emitting each counted (pac, other) pair in loop
order: for each `i`, pairs with every later `j`, oriented pac-first. -/
def pairsOf : List Item → List (Item × Item)
  | [] => []
  | x :: xs =>
    (xs.filterMap (fun y =>
      if x.isPacTag && y.isOtherTag then some (x, y)
      else if y.isPacTag && x.isOtherTag then some (y, x)
      else none)) ++ pairsOf xs

/-- An association-rule record. -/
structure Rule where
  antecedent : String
  consequent : String
  support : ℚ
  confidence : ℚ
  lift : ℚ
  count : Nat
  antecedent_count : Nat
  consequent_count : Nat
deriving DecidableEq, Repr

/-- Python `int(q)`: truncation toward zero. -/
def pyIntOfRat (q : ℚ) : ℤ :=
  if 0 ≤ q then ⌊q⌋ else ⌈q⌉

/-- The rule dict appended for a retained pair: support, confidence, lift
(0 when the consequent's support fraction is not positive), counts, and the
tag stripped from the item strings by `str.replace` (which removes every
occurrence). -/
def mkRule (itemCounts : List (Item × Nat)) (totalTransactions : Nat)
    (a o : Item) (count : Nat) : Rule :=
  let support : ℚ := (count : ℚ) / (totalTransactions : ℚ)
  let confidence : ℚ := (count : ℚ) / (counterGet itemCounts a : ℚ)
  let consequentSupport : ℚ := (counterGet itemCounts o : ℚ) / (totalTransactions : ℚ)
  { antecedent := (a.toStr).replace "pac:" ""
    consequent := (o.toStr).replace "other:" ""
    support := support
    confidence := confidence
    lift := if 0 < consequentSupport then confidence / consequentSupport else 0
    count := count
    antecedent_count := counterGet itemCounts a
    consequent_count := counterGet itemCounts o }

/-- The rule-generation loop over `pair_counts.items()`: a pair is retained
iff `count >= min_support_count` and `confidence >= min_confidence`; retained
rules are appended in iteration order. -/
def genRules (itemCounts : List (Item × Nat)) (totalTransactions : Nat)
    (minSupportCount : ℤ) (minConfidence : ℚ) :
    List ((Item × Item) × Nat) → List Rule
  | [] => []
  | ((a, o), count) :: rest =>
    (if minSupportCount ≤ (count : ℤ) ∧
        minConfidence ≤ (count : ℚ) / (counterGet itemCounts a : ℚ) then
      [mkRule itemCounts totalTransactions a o count]
    else []) ++ genRules itemCounts totalTransactions minSupportCount minConfidence rest

/-- The sort key comparison behind
`rules.sort(key=lambda x: (x['confidence'], x['support']), reverse=True)`:
`x` may precede `y` iff `(x.confidence, x.support)` is lexicographically
greater than or equal to `(y.confidence, y.support)`. -/
def ruleKeyGE (x y : Rule) : Bool :=
  decide (y.confidence < x.confidence ∨
    (x.confidence = y.confidence ∧ y.support ≤ x.support))

/-- Stable insertion into a descending-sorted list: the new element goes
after every element it does not strictly precede, which is how Python's
stable `list.sort(..., reverse=True)` orders ties (original order kept). -/
def insertRuleDesc (x : Rule) : List Rule → List Rule
  | [] => [x]
  | y :: ys => if ruleKeyGE y x then y :: insertRuleDesc x ys else x :: y :: ys

/-- Stable descending sort by `(confidence, support)`; a stable sort is
unique given the key preorder, so this insertion sort produces exactly the
list Python's stable `list.sort` produces. -/
def sortRulesDesc (l : List Rule) : List Rule :=
  l.foldl (fun acc x => insertRuleDesc x acc) []

/-- Python `mine_association_rules` up to (but not including) the final sort:
the early `return []` when no transaction qualifies, then item counting,
pair counting and rule generation. -/
def mineRulesUnsorted (cochangeData : List CochangeEntry)
    (minSupport : ℚ) (minConfidence : ℚ) : List Rule :=
  let transactions := transactionsOf cochangeData
  if transactions = [] then []
  else
    let totalTransactions := transactions.length
    let minSupportCount := pyIntOfRat (minSupport * (totalTransactions : ℚ))
    let itemCounts := counterOf (transactions.flatMap (fun t => t))
    let pairCounts := counterOf (transactions.flatMap pairsOf)
    genRules itemCounts totalTransactions minSupportCount minConfidence pairCounts

/-- Python `mine_association_rules`: the generated rules, sorted in place by
`(confidence, support)` descending with Python's stable sort (sorting the
empty early-return list is the empty list, so the sort can be applied
uniformly). -/
def mine_association_rules (cochangeData : List CochangeEntry)
    (minSupport : ℚ) (minConfidence : ℚ) : List Rule :=
  sortRulesDesc (mineRulesUnsorted cochangeData minSupport minConfidence)

/-- Spec-side quantity: the number of transactions containing both
given items ("count = number of transactions containing both"). -/
def numTransBoth (ts : List (List Item)) (a o : Item) : Nat :=
  (ts.filter (fun t => a ∈ t ∧ o ∈ t)).length

/-- Spec-side quantity: the number of transactions containing a given
item ("transactions containing the PaC-extension"). -/
def numTransWith (ts : List (List Item)) (a : Item) : Nat :=
  (ts.filter (fun t => a ∈ t)).length

/-- Spec-side rule record for the pair `(pe, oe)`: every metric written with
the claim's formulas (count over transactions, support, confidence, and lift
with its zero guard), for comparison with the miner's output. -/
def specRule (ts : List (List Item)) (pe oe : String) : Rule :=
  { antecedent := String.replace ("pac:" ++ pe) "pac:" ""
    consequent := String.replace ("other:" ++ oe) "other:" ""
    support := (numTransBoth ts (Item.pacItem pe) (Item.otherItem oe) : ℚ) / (ts.length : ℚ)
    confidence := (numTransBoth ts (Item.pacItem pe) (Item.otherItem oe) : ℚ) /
      (numTransWith ts (Item.pacItem pe) : ℚ)
    lift := if 0 < (numTransWith ts (Item.otherItem oe) : ℚ) / (ts.length : ℚ) then
      ((numTransBoth ts (Item.pacItem pe) (Item.otherItem oe) : ℚ) /
        (numTransWith ts (Item.pacItem pe) : ℚ)) /
        ((numTransWith ts (Item.otherItem oe) : ℚ) / (ts.length : ℚ))
    else 0
    count := numTransBoth ts (Item.pacItem pe) (Item.otherItem oe)
    antecedent_count := numTransWith ts (Item.pacItem pe)
    consequent_count := numTransWith ts (Item.otherItem oe) }

/-! ## Concrete sample data used by the witnesses, and counter keys -/

/-- A sample commit touching a modified PaC file and a modified non-PaC
file, used to witness the classifier claims. -/
def sampleCommit : Commit :=
  { commit_id := "c1", author := "a", author_email := "a@x", message := "m",
    date := some 0, files := ["policy.rego", "main.go"],
    changes := [{ file := "policy.rego", additions := 5, deletions := 1,
                  total_changes := 6, status := some 3 },
                { file := "main.go", additions := 2, deletions := 0,
                  total_changes := 2, status := some 3 }],
    pac_changes := [], other_changes := [] }

/-- The sample PaC registry: `policy.rego` of repository 7. -/
def sampleRegistry : List (Int × String) := [(7, "policy.rego")]

/-- A sample raw commit dict input for the analyzer witness. -/
def sampleCommitChanges : List (String × CommitInfo) :=
  [("c1", { author := "a", author_email := "a@x", message := "m", date := some 0,
            files := ["policy.rego", "main.go"],
            changes := [{ file := "policy.rego", additions := 5, deletions := 1,
                          total_changes := 6, status := some 3 },
                        { file := "main.go", additions := 2, deletions := 0,
                          total_changes := 2, status := some 3 }] })]

/-- A commit whose single file has no matching change record. -/
def orphanFileCommit : Commit :=
  { commit_id := "x", author := "", author_email := "", message := "", date := none,
    files := ["a"], changes := [], pac_changes := [], other_changes := [] }

/-- A valid merge input contributing one repository entry that has zero
commits, so the aggregated totals are zero as well. -/
def zeroCommitResultFile : ResultFile :=
  { name := "good.json", hasMetadata := true, hasRepositories := true,
    repositories := [{ total_commits := 0, pac_changes_count := 0,
                       pac_commits_count := 0 }] }

/-- A merge input missing the `metadata` field. -/
def invalidResultFile : ResultFile :=
  { name := "bad.json", hasMetadata := false, hasRepositories := true,
    repositories := [] }

/-- The keys of a counter in first-insertion order. -/
def firstKeys {α : Type} [DecidableEq α] (l : List α) : List α :=
  l.foldl (fun ks k => if k ∈ ks then ks else ks ++ [k]) []

/-- A sample co-change dataset: one commit touching `.rego` PaC files
together with `.yaml` files. -/
def sampleCochange : List CochangeEntry :=
  [{ repository := "own/rep", commit_id := "c1",
     pac_extensions := [".rego"], other_extensions := [".yaml"] }]

/-- A co-change entry with PaC extensions but no other-extensions. -/
def pacOnlyEntry : CochangeEntry :=
  { repository := "r", commit_id := "c",
    pac_extensions := [".rego"], other_extensions := [] }

/-! ## Lemmas about the commit classifier -/

theorem changeMapLookup_file {changes : List Change} {fp : String} {ch : Change}
    (h : changeMapLookup changes fp = some ch) : ch.file = fp := by
  have hmem := List.mem_of_getLast?_eq_some h
  have := List.mem_filter.mp hmem
  simpa using this.2

theorem mem_pacFilesInCommit {pacFiles : List (Int × String)} {repoId : Int}
    {c : Commit} {p : Change} (hp : p ∈ pacFilesInCommit pacFiles repoId c) :
    p.file ∈ c.files ∧ is_pac_file pacFiles repoId p.file = true ∧
      changeMapLookup c.changes p.file ≠ none ∧
      p.status ≠ some 1 ∧ p.status ≠ some 2 := by
  simp only [pacFilesInCommit, List.mem_filterMap] at hp
  obtain ⟨fp, hfp, hsome⟩ := hp
  by_cases hpac : is_pac_file pacFiles repoId fp
  · rw [if_pos hpac] at hsome
    cases hlook : changeMapLookup c.changes fp with
    | some changeInfo =>
      simp only [hlook] at hsome
      by_cases hst : changeInfo.status = some 1 ∨ changeInfo.status = some 2
      · rw [if_pos hst] at hsome
        exact absurd hsome (by simp)
      · rw [if_neg hst] at hsome
        simp only [Option.some.injEq] at hsome
        push_neg at hst
        subst hsome
        simp_all
    | none => simp [hlook] at hsome
  · rw [if_neg hpac] at hsome
    exact absurd hsome (by simp)

theorem mem_otherChangesInCommit {pacFiles : List (Int × String)} {repoId : Int}
    {c : Commit} {o : Change} (ho : o ∈ otherChangesInCommit pacFiles repoId c) :
    o.file ∈ c.files ∧ is_pac_file pacFiles repoId o.file = false ∧
      o.status ≠ some 1 ∧ o.status ≠ some 2 := by
  simp only [otherChangesInCommit, List.mem_filterMap] at ho
  obtain ⟨fp, hfp, hsome⟩ := ho
  by_cases hpac : is_pac_file pacFiles repoId fp
  · rw [if_pos hpac] at hsome
    exact absurd hsome (by simp)
  · rw [if_neg hpac] at hsome
    cases hlook : changeMapLookup c.changes fp with
    | some changeInfo =>
      simp only [hlook] at hsome
      by_cases hst : changeInfo.status = some 1 ∨ changeInfo.status = some 2
      · rw [if_pos hst] at hsome
        exact absurd hsome (by simp)
      · rw [if_neg hst] at hsome
        simp only [Option.some.injEq] at hsome
        push_neg at hst
        have hfile := changeMapLookup_file hlook
        subst hsome
        simp_all [Bool.not_eq_true]
    | none =>
      simp only [hlook, Option.some.injEq] at hsome
      subst hsome
      simp_all [Bool.not_eq_true]

theorem countPacLoop_classified (pacFiles : List (Int × String)) (repoId : Int) :
    ∀ (l : List Commit) (count : Nat) (pacCommits : List (String × List Change))
      (done : List Commit),
      (countPacLoop pacFiles repoId l count pacCommits done).2.2 =
        done ++ l.map (classifyCommit pacFiles repoId)
  | [], _, _, _ => by simp [countPacLoop]
  | c :: rest, count, pacCommits, done => by
    simp only [countPacLoop]
    by_cases h : (classifyCommit pacFiles repoId c).pac_changes ≠ []
    · rw [if_pos h, countPacLoop_classified pacFiles repoId rest]
      simp
    · rw [if_neg h, countPacLoop_classified pacFiles repoId rest]
      simp

theorem mem_count_pac_output {pacFiles : List (Int × String)} {repoId : Int}
    {commits : List Commit} {c : Commit}
    (hc : c ∈ (count_pac_changes_from_commits pacFiles repoId commits).2.2) :
    ∃ c0 ∈ commits, c = classifyCommit pacFiles repoId c0 := by
  rw [count_pac_changes_from_commits, countPacLoop_classified] at hc
  simp only [List.nil_append, List.mem_map] at hc
  obtain ⟨c0, hc0, hcc⟩ := hc
  exact ⟨c0, hc0, hcc.symm⟩

/-- C1.  For every commit classified by `count_pac_changes_from_commits`, the
resulting `pac_changes` and `other_changes` are disjoint on file paths, and
neither contains an entry whose status is Added (1) or Deleted (2). -/
theorem count_pac_changes_partition_invariant (pacFiles : List (Int × String))
    (repoId : Int) (commits : List Commit) (c : Commit)
    (hc : c ∈ (count_pac_changes_from_commits pacFiles repoId commits).2.2) :
    (∀ p ∈ c.pac_changes, ∀ o ∈ c.other_changes, p.file ≠ o.file) ∧
    (∀ p ∈ c.pac_changes, p.status ≠ some 1 ∧ p.status ≠ some 2) ∧
    (∀ o ∈ c.other_changes, o.status ≠ some 1 ∧ o.status ≠ some 2) := by
  obtain ⟨c0, _, rfl⟩ := mem_count_pac_output hc
  refine ⟨?_, ?_, ?_⟩
  · intro p hp o ho
    have hp' := mem_pacFilesInCommit (c := c0) hp
    have ho' := mem_otherChangesInCommit (c := c0) ho
    intro hfile
    rw [hfile] at hp'
    rw [hp'.2.1] at ho'
    simp at ho'
  · intro p hp
    have hp' := mem_pacFilesInCommit (c := c0) hp
    exact ⟨hp'.2.2.2.1, hp'.2.2.2.2⟩
  · intro o ho
    have ho' := mem_otherChangesInCommit (c := c0) ho
    exact ⟨ho'.2.2.1, ho'.2.2.2⟩



/-- Witness for C1: the classified sample commit is in the classifier's
output and satisfies the partition invariant. -/
theorem count_pac_changes_partition_invariant_witness :
    (classifyCommit sampleRegistry 7 sampleCommit ∈
      (count_pac_changes_from_commits sampleRegistry 7 [sampleCommit]).2.2) ∧
    ((∀ p ∈ (classifyCommit sampleRegistry 7 sampleCommit).pac_changes,
        ∀ o ∈ (classifyCommit sampleRegistry 7 sampleCommit).other_changes,
          p.file ≠ o.file) ∧
     (∀ p ∈ (classifyCommit sampleRegistry 7 sampleCommit).pac_changes,
        p.status ≠ some 1 ∧ p.status ≠ some 2) ∧
     (∀ o ∈ (classifyCommit sampleRegistry 7 sampleCommit).other_changes,
        o.status ≠ some 1 ∧ o.status ≠ some 2)) :=
  ⟨by decide,
   count_pac_changes_partition_invariant sampleRegistry 7 [sampleCommit]
     (classifyCommit sampleRegistry 7 sampleCommit) (by decide)⟩

/-! ## Lemmas about the repository aggregation (`analyze_repository`) -/

theorem classifyCommit_commit_id (pacFiles : List (Int × String)) (repoId : Int)
    (c : Commit) : (classifyCommit pacFiles repoId c).commit_id = c.commit_id := rfl

theorem countPacLoop_count (pacFiles : List (Int × String)) (repoId : Int) :
    ∀ (l : List Commit) (count : Nat) (pacCommits : List (String × List Change))
      (done : List Commit),
      (countPacLoop pacFiles repoId l count pacCommits done).1 =
        count + ((l.map (classifyCommit pacFiles repoId)).map
          (fun c => c.pac_changes.length)).sum
  | [], _, _, _ => by simp [countPacLoop]
  | c :: rest, count, pacCommits, done => by
    simp only [countPacLoop]
    by_cases h : (classifyCommit pacFiles repoId c).pac_changes ≠ []
    · rw [if_pos h, countPacLoop_count pacFiles repoId rest]
      simp only [List.map_cons, List.sum_cons]
      omega
    · rw [if_neg h, countPacLoop_count pacFiles repoId rest]
      push_neg at h
      simp [h]

theorem countPacLoop_dict (pacFiles : List (Int × String)) (repoId : Int) :
    ∀ (l : List Commit) (count : Nat) (pacCommits : List (String × List Change))
      (done : List Commit),
      (l.map (·.commit_id)).Nodup →
      (∀ c ∈ l, ∀ p ∈ pacCommits, p.1 ≠ c.commit_id) →
      (countPacLoop pacFiles repoId l count pacCommits done).2.1 =
        pacCommits ++
          ((l.map (classifyCommit pacFiles repoId)).filter
            (fun c => c.pac_changes ≠ [])).map (fun c => (c.commit_id, c.pac_changes))
  | [], _, _, _, _, _ => by simp [countPacLoop]
  | c :: rest, count, pacCommits, done, hids, hfresh => by
    have hids' : (rest.map (·.commit_id)).Nodup := (List.nodup_cons.mp hids).2
    have hhead : c.commit_id ∉ rest.map (·.commit_id) := (List.nodup_cons.mp hids).1
    simp only [countPacLoop]
    by_cases h : (classifyCommit pacFiles repoId c).pac_changes ≠ []
    · rw [if_pos h]
      have hins : dictInsert pacCommits (classifyCommit pacFiles repoId c).commit_id
          (classifyCommit pacFiles repoId c).pac_changes =
          pacCommits ++ [((classifyCommit pacFiles repoId c).commit_id,
            (classifyCommit pacFiles repoId c).pac_changes)] := by
        rw [dictInsert, if_neg]
        simp only [List.any_eq_true, not_exists, not_and, classifyCommit_commit_id]
        intro p hp
        simpa using hfresh c (by simp) p hp
      rw [hins, countPacLoop_dict pacFiles repoId rest _ _ _ hids' ?hfresh]
      · simp only [List.map_cons, classifyCommit_commit_id]
        rw [List.filter_cons_of_pos (by simpa using h)]
        simp [classifyCommit_commit_id]
      · intro c' hc' p hp
        rcases List.mem_append.mp hp with hp | hp
        · exact hfresh c' (by simp [hc']) p hp
        · simp only [List.mem_singleton] at hp
          subst hp
          simp only [classifyCommit_commit_id]
          intro hcontra
          exact hhead (hcontra ▸ List.mem_map_of_mem (·.commit_id) hc')
    · rw [if_neg h, countPacLoop_dict pacFiles repoId rest _ _ _ hids'
        (fun c' hc' => hfresh c' (by simp [hc']))]
      push_neg at h
      simp only [List.map_cons]
      rw [List.filter_cons_of_neg (by simp [h])]

theorem sum_over_filter_pac (g : List Change → Nat) (hg : g [] = 0) :
    ∀ l : List Commit,
      ((l.filter (fun c => c.pac_changes ≠ [])).map (fun c => g c.pac_changes)).sum =
        (l.map (fun c => g c.pac_changes)).sum
  | [] => by simp
  | c :: rest => by
    by_cases h : c.pac_changes ≠ []
    · rw [List.filter_cons_of_pos (by simpa using h), List.map_cons, List.map_cons,
        List.sum_cons, List.sum_cons, sum_over_filter_pac g hg rest]
    · rw [List.filter_cons_of_neg (by simpa using h), List.map_cons, List.sum_cons,
        sum_over_filter_pac g hg rest]
      push_neg at h
      rw [h, hg, Nat.zero_add]

theorem parse_commits_ids (commitChanges : List (String × CommitInfo)) :
    (parse_commits commitChanges).map (·.commit_id) = commitChanges.map Prod.fst := by
  simp [parse_commits, List.map_map]

/-- C2.  Every analysis result produced by `analyze_repository` has
`total_commits` equal to the number of input commits, `pac_changes_count`
equal to the number of PaC file entries summed over its commits,
`pac_commits_count` equal to the number of commits with at least one PaC
entry, `pac_change_ratio` equal to `pac_changes_count / total_commits`
guarded to 0 when `total_commits = 0`, and PaC line totals summed over the
`pac_changes` entries only. -/
theorem analyze_repository_aggregates (pacFiles : List (Int × String)) (repoId : Int)
    (commitChanges : List (String × CommitInfo)) (projectName : Option String)
    (hkeys : (commitChanges.map Prod.fst).Nodup) :
    (analyze_repository pacFiles repoId commitChanges projectName).elim True (fun r =>
      r.total_commits = commitChanges.length ∧
      r.pac_changes_count = (r.commits.map (fun c => c.pac_changes.length)).sum ∧
      r.pac_commits_count = (r.commits.filter (fun c => c.pac_changes ≠ [])).length ∧
      r.pac_change_ratio = (if 0 < r.total_commits then
        (r.pac_changes_count : ℚ) / (r.total_commits : ℚ) else 0) ∧
      r.statistics.pac_added_lines =
        (r.commits.map (fun c => (c.pac_changes.map (·.additions)).sum)).sum ∧
      r.statistics.pac_deleted_lines =
        (r.commits.map (fun c => (c.pac_changes.map (·.deletions)).sum)).sum) := by
  have hids : ((parse_commits commitChanges).map (·.commit_id)).Nodup := by
    rw [parse_commits_ids]; exact hkeys
  have hclass : (count_pac_changes_from_commits pacFiles repoId
      (parse_commits commitChanges)).2.2 =
      (parse_commits commitChanges).map (classifyCommit pacFiles repoId) := by
    simpa [count_pac_changes_from_commits] using
      countPacLoop_classified pacFiles repoId (parse_commits commitChanges) 0 [] []
  have hcnt : (count_pac_changes_from_commits pacFiles repoId
      (parse_commits commitChanges)).1 =
      (((parse_commits commitChanges).map (classifyCommit pacFiles repoId)).map
        (fun c => c.pac_changes.length)).sum := by
    simpa [count_pac_changes_from_commits] using
      countPacLoop_count pacFiles repoId (parse_commits commitChanges) 0 [] []
  have hdict : (count_pac_changes_from_commits pacFiles repoId
      (parse_commits commitChanges)).2.1 =
      (((parse_commits commitChanges).map (classifyCommit pacFiles repoId)).filter
        (fun c => c.pac_changes ≠ [])).map (fun c => (c.commit_id, c.pac_changes)) := by
    simpa [count_pac_changes_from_commits] using
      countPacLoop_dict pacFiles repoId (parse_commits commitChanges) 0 [] []
        hids (by intro c _ p hp; simp at hp)
  cases projectName with
  | none => simp [analyze_repository]
  | some pn =>
    by_cases hslash : pn ≠ "" ∧ pn.toList.contains '/'
    · simp only [analyze_repository]
      rw [if_pos hslash]
      simp only [Option.elim_some]
      refine ⟨trivial, ?_, ?_, trivial, ?_, ?_⟩
      · rw [hcnt, hclass]
      · rw [hdict, hclass, List.length_map]
      · rw [hdict, hclass, List.map_map]
        exact sum_over_filter_pac (fun chs => (chs.map (·.additions)).sum) rfl _
      · rw [hdict, hclass, List.map_map]
        exact sum_over_filter_pac (fun chs => (chs.map (·.deletions)).sum) rfl _
    · simp only [analyze_repository]
      rw [if_neg hslash]
      simp


/-- Witness for C2 on a one-commit repository with a valid project name. -/
theorem analyze_repository_aggregates_witness :
    (sampleCommitChanges.map Prod.fst).Nodup ∧
    (analyze_repository sampleRegistry 7 sampleCommitChanges (some "own/rep")).elim True
      (fun r =>
        r.total_commits = sampleCommitChanges.length ∧
        r.pac_changes_count = (r.commits.map (fun c => c.pac_changes.length)).sum ∧
        r.pac_commits_count = (r.commits.filter (fun c => c.pac_changes ≠ [])).length ∧
        r.pac_change_ratio = (if 0 < r.total_commits then
          (r.pac_changes_count : ℚ) / (r.total_commits : ℚ) else 0) ∧
        r.statistics.pac_added_lines =
          (r.commits.map (fun c => (c.pac_changes.map (·.additions)).sum)).sum ∧
        r.statistics.pac_deleted_lines =
          (r.commits.map (fun c => (c.pac_changes.map (·.deletions)).sum)).sum) :=
  ⟨by decide,
   analyze_repository_aggregates sampleRegistry 7 sampleCommitChanges (some "own/rep")
     (by decide)⟩

/-! ## The root-commit tree walk produces exactly the reachable files -/

/-- C9.  For a commit with no parent, every file reachable from the tree
yields exactly one change record, with status Added (1), `deletions = 0`,
and `additions` equal to the newline count of the decodable content (0 for
binary or attribute-less blobs). -/
theorem walk_tree_root_commit_records (t : GitTree) (pre : String) :
    walk_tree t pre = (reachableFiles t pre).map (fun pb =>
      { file := pb.1
        additions := blobAddedLines pb.2
        deletions := 0
        total_changes := blobAddedLines pb.2
        status := some 1 }) := by
  induction t, pre using walk_tree.induct with
  | case1 pre => simp [walk_tree, reachableFiles]
  | case2 name b rest pre ih => simp [walk_tree, reachableFiles, ih]
  | case3 name sub rest pre ih1 ih2 => simp [walk_tree, reachableFiles, ih1, ih2]

/-! ## Files without a matching change record -/


/-- C5 counterexample.  A non-PaC file with no matching change record is
NOT excluded from `other_changes`: the classifier emits the default
zero-statistics record for it. -/
theorem missing_change_record_cex :
    changeMapLookup orphanFileCommit.changes "a" = none ∧
    is_pac_file [] 0 "a" = false ∧
    classifyCommit [] 0 orphanFileCommit ∈
      (count_pac_changes_from_commits [] 0 [orphanFileCommit]).2.2 ∧
    ({ file := "a", additions := 0, deletions := 0, total_changes := 0,
       status := none } : Change) ∈ (classifyCommit [] 0 orphanFileCommit).other_changes := by
  decide

/-- C5 amended.  For a commit classified by `count_pac_changes_from_commits`
and a file of it without a matching change record: the file never appears in
`pac_changes`; when it is a PaC file it is also absent from `other_changes`;
but when it is a non-PaC file it IS included in `other_changes`, as the
default record with zero additions/deletions and no status. -/
theorem missing_change_record_amended (pacFiles : List (Int × String)) (repoId : Int)
    (commits : List Commit) (c : Commit)
    (hc : c ∈ (count_pac_changes_from_commits pacFiles repoId commits).2.2)
    (f : String) (hf : f ∈ c.files) (hmiss : changeMapLookup c.changes f = none) :
    (∀ p ∈ c.pac_changes, p.file ≠ f) ∧
    (is_pac_file pacFiles repoId f = true → ∀ o ∈ c.other_changes, o.file ≠ f) ∧
    (is_pac_file pacFiles repoId f = false →
      ({ file := f, additions := 0, deletions := 0, total_changes := 0,
         status := none } : Change) ∈ c.other_changes) := by
  obtain ⟨c0, _, rfl⟩ := mem_count_pac_output hc
  have hf0 : f ∈ c0.files := hf
  have hmiss0 : changeMapLookup c0.changes f = none := hmiss
  refine ⟨?_, ?_, ?_⟩
  · intro p hp hpf
    have hp' := mem_pacFilesInCommit (c := c0) hp
    rw [hpf] at hp'
    exact hp'.2.2.1 hmiss0
  · intro hpac o ho hof
    have ho' := mem_otherChangesInCommit (c := c0) ho
    rw [hof] at ho'
    rw [ho'.2.1] at hpac
    simp at hpac
  · intro hpac
    show _ ∈ otherChangesInCommit pacFiles repoId c0
    rw [otherChangesInCommit]
    refine List.mem_filterMap.mpr ⟨f, hf0, ?_⟩
    rw [if_neg (by simp [hpac])]
    simp only [hmiss0]

/-- Witness for the amended C5 on the concrete orphan-file commit. -/
theorem missing_change_record_amended_witness :
    (classifyCommit [] 0 orphanFileCommit ∈
      (count_pac_changes_from_commits [] 0 [orphanFileCommit]).2.2) ∧
    ("a" ∈ (classifyCommit [] 0 orphanFileCommit).files) ∧
    (changeMapLookup (classifyCommit [] 0 orphanFileCommit).changes "a" = none) ∧
    ((∀ p ∈ (classifyCommit [] 0 orphanFileCommit).pac_changes, p.file ≠ "a") ∧
     (is_pac_file [] 0 "a" = true →
       ∀ o ∈ (classifyCommit [] 0 orphanFileCommit).other_changes, o.file ≠ "a") ∧
     (is_pac_file [] 0 "a" = false →
       ({ file := "a", additions := 0, deletions := 0, total_changes := 0,
          status := none } : Change) ∈
         (classifyCommit [] 0 orphanFileCommit).other_changes)) :=
  ⟨by decide, by decide, by decide,
   missing_change_record_amended [] 0 [orphanFileCommit] _ (by decide) "a"
     (by decide) (by decide)⟩

/-! ## Lemmas about the cross-repository merge -/

theorem aggregateLoop_spec :
    ∀ (l : List ResultFile) (rs : List RepoEntry) (fs : List String),
      aggregateLoop l (rs, fs) =
        (rs ++ (l.filter (fun f => f.hasMetadata ∧ f.hasRepositories)).flatMap
          (·.repositories),
         fs ++ (l.filter (fun f => ¬(f.hasMetadata ∧ f.hasRepositories))).map (·.name))
  | [], rs, fs => by simp [aggregateLoop]
  | f :: rest, rs, fs => by
    simp only [aggregateLoop, load_result_file]
    by_cases h : f.hasMetadata ∧ f.hasRepositories
    · rw [if_pos h]
      simp only []
      rw [aggregateLoop_spec rest]
      rw [List.filter_cons_of_pos (by simpa using h),
        List.filter_cons_of_neg (by simpa using h)]
      simp
    · rw [if_neg h]
      simp only []
      rw [aggregateLoop_spec rest]
      rw [List.filter_cons_of_neg (by simpa using h),
        List.filter_cons_of_pos (by simp only [decide_eq_true_eq]; exact h)]
      simp

/-- C7.  For every list of merge inputs: inputs missing either required
top-level field are recorded as failures and their repositories are
excluded, valid inputs' repositories are all included, the merge output is
non-empty whenever some valid input contributes repositories, and the
recomputed ratios are 0 when the total commit count is 0.  Only the
non-emptiness clause is conditioned on such a contributing input; the other
three parts hold unconditionally, also for an all-malformed input list. -/
theorem aggregate_results_merge_spec (resultFiles : List ResultFile) :
    (aggregate_results resultFiles).failed_files =
      (resultFiles.filter (fun g => ¬(g.hasMetadata ∧ g.hasRepositories))).map (·.name) ∧
    (aggregate_results resultFiles).repositories =
      (resultFiles.filter (fun g => g.hasMetadata ∧ g.hasRepositories)).flatMap
        (·.repositories) ∧
    (∀ f ∈ resultFiles, f.hasMetadata = true → f.hasRepositories = true →
      f.repositories ≠ [] → (aggregate_results resultFiles).repositories ≠ []) ∧
    ((aggregate_results resultFiles).total_commits = 0 →
      (aggregate_results resultFiles).pac_change_ratio = 0 ∧
      (aggregate_results resultFiles).pac_commit_ratio = 0) := by
  have hloop := aggregateLoop_spec resultFiles [] []
  have hrepos : (aggregate_results resultFiles).repositories =
      (resultFiles.filter (fun g => g.hasMetadata ∧ g.hasRepositories)).flatMap
        (·.repositories) := by
    simp only [aggregate_results, hloop]
    simp
  have hfailed : (aggregate_results resultFiles).failed_files =
      (resultFiles.filter (fun g => ¬(g.hasMetadata ∧ g.hasRepositories))).map (·.name) := by
    simp only [aggregate_results, hloop]
    simp
  refine ⟨hfailed, hrepos, ?_, ?_⟩
  · intro f hf hfm hfr hne
    rw [hrepos]
    intro hnil
    rw [List.flatMap_eq_nil_iff] at hnil
    exact hne (hnil f (List.mem_filter.mpr ⟨hf, by simp [hfm, hfr]⟩))
  · intro h0
    have h0' : ((aggregate_results resultFiles).repositories.map (·.total_commits)).sum
        = 0 := by
      simp only [aggregate_results, hloop] at h0 ⊢
      simpa using h0
    constructor
    · show (if 0 < (((aggregateLoop resultFiles ([], [])).1.map (·.total_commits)).sum)
        then _ else (0 : ℚ)) = 0
      rw [if_neg]
      simp only [aggregate_results, hloop] at h0
      simp only [hloop]
      omega
    · show (if 0 < (((aggregateLoop resultFiles ([], [])).1.map (·.total_commits)).sum)
        then _ else (0 : ℚ)) = 0
      rw [if_neg]
      simp only [aggregate_results, hloop] at h0
      simp only [hloop]
      omega



/-- Witness for C7 on one valid and one invalid input file; the valid one
contributes a zero-commit repository, so every conditional clause of the
theorem is discharged here: the contributing-input premises of the
non-emptiness clause and the zero-total premise of the ratio clause. -/
theorem aggregate_results_merge_spec_witness :
    ((aggregate_results [zeroCommitResultFile, invalidResultFile]).failed_files =
      ([zeroCommitResultFile, invalidResultFile].filter
        (fun g => ¬(g.hasMetadata ∧ g.hasRepositories))).map (·.name)) ∧
    ((aggregate_results [zeroCommitResultFile, invalidResultFile]).repositories =
      ([zeroCommitResultFile, invalidResultFile].filter
        (fun g => g.hasMetadata ∧ g.hasRepositories)).flatMap (·.repositories)) ∧
    (zeroCommitResultFile ∈ [zeroCommitResultFile, invalidResultFile] ∧
     zeroCommitResultFile.hasMetadata = true ∧
     zeroCommitResultFile.hasRepositories = true ∧
     zeroCommitResultFile.repositories ≠ [] ∧
     (aggregate_results [zeroCommitResultFile, invalidResultFile]).repositories ≠ []) ∧
    ((aggregate_results [zeroCommitResultFile, invalidResultFile]).total_commits = 0 ∧
     (aggregate_results [zeroCommitResultFile, invalidResultFile]).pac_change_ratio = 0 ∧
     (aggregate_results [zeroCommitResultFile, invalidResultFile]).pac_commit_ratio = 0) :=
  ⟨(aggregate_results_merge_spec [zeroCommitResultFile, invalidResultFile]).1,
   (aggregate_results_merge_spec [zeroCommitResultFile, invalidResultFile]).2.1,
   ⟨by decide, rfl, rfl, by decide,
    (aggregate_results_merge_spec [zeroCommitResultFile, invalidResultFile]).2.2.1
      zeroCommitResultFile (by decide) rfl rfl (by decide)⟩,
   by
    have h0 : (aggregate_results [zeroCommitResultFile, invalidResultFile]).total_commits
        = 0 := by decide
    have hr := (aggregate_results_merge_spec
      [zeroCommitResultFile, invalidResultFile]).2.2.2 h0
    exact ⟨h0, hr.1, hr.2⟩⟩

/-! ## The file-extension function -/

/-- C6 counterexample.  The path `".tar"` has no suffix (its `pathlib` stem
is the whole name `".tar"`), yet `extract_file_extension` returns `".tar"`
rather than the sentinel `"no_extension"` claimed for suffix-less paths. -/
theorem extract_file_extension_cex :
    pySuffix ".tar" = "" ∧ extract_file_extension ".tar" = ".tar" ∧
    extract_file_extension ".tar" ≠ "no_extension" := by
  decide

theorem strLower_eq_empty_iff (s : String) : strLower s = "" ↔ s = "" := by
  rw [strLower, List.asString_eq]
  constructor
  · intro h
    rw [String.ext_iff]
    simpa [String.toList] using h
  · intro h
    subst h
    simp [String.toList]

theorem tar_append_ne_empty (s : String) : ".tar" ++ s ≠ "" := by
  intro h
  rw [String.ext_iff, String.data_append] at h
  simp at h

/-- C6 amended.  The extension is the lower-cased `pathlib` suffix; whenever
the (unlowered) stem ends with `".tar"` the result is `".tar"` followed by
the lower-cased suffix, even when the suffix is empty (so a bare `".tar"`
maps to `".tar"`, not to the sentinel); the sentinel `"no_extension"` is
returned exactly when the suffix is empty and the stem does not end with
`".tar"`. -/
theorem extract_file_extension_amended (p : String) :
    (pyEndsWith (pyStem p) ".tar" = true →
      extract_file_extension p = ".tar" ++ strLower (pySuffix p)) ∧
    (pyEndsWith (pyStem p) ".tar" = false → pySuffix p ≠ "" →
      extract_file_extension p = strLower (pySuffix p)) ∧
    (pyEndsWith (pyStem p) ".tar" = false → pySuffix p = "" →
      extract_file_extension p = "no_extension") := by
  refine ⟨?_, ?_, ?_⟩
  · intro htar
    have hstem : pyStem p ≠ "" := by
      intro he
      rw [he] at htar
      exact absurd htar (by decide)
    have hinner : (if pyStem p ≠ "" ∧ pyEndsWith (pyStem p) ".tar" = true
        then ".tar" ++ strLower (pySuffix p) else strLower (pySuffix p)) =
        ".tar" ++ strLower (pySuffix p) := if_pos ⟨hstem, htar⟩
    rw [extract_file_extension, hinner,
      if_pos (tar_append_ne_empty (strLower (pySuffix p)))]
  · intro htar hsuf
    have hinner : (if pyStem p ≠ "" ∧ pyEndsWith (pyStem p) ".tar" = true
        then ".tar" ++ strLower (pySuffix p) else strLower (pySuffix p)) =
        strLower (pySuffix p) := if_neg (by simp [htar])
    rw [extract_file_extension, hinner,
      if_pos ((not_iff_not.mpr (strLower_eq_empty_iff (pySuffix p))).mpr hsuf)]
  · intro htar hsuf
    have hinner : (if pyStem p ≠ "" ∧ pyEndsWith (pyStem p) ".tar" = true
        then ".tar" ++ strLower (pySuffix p) else strLower (pySuffix p)) =
        strLower (pySuffix p) := if_neg (by simp [htar])
    have hempty : strLower (pySuffix p) = "" := (strLower_eq_empty_iff (pySuffix p)).mpr hsuf
    rw [extract_file_extension, hinner, if_neg (by simp [hempty])]

/-- Witness for the amended C6 on concrete paths from each branch. -/
theorem extract_file_extension_amended_witness :
    (pyEndsWith (pyStem "x.tar.GZ") ".tar" = true ∧
      extract_file_extension "x.tar.GZ" = ".tar" ++ strLower (pySuffix "x.tar.GZ")) ∧
    (pyEndsWith (pyStem "a/b.TXT") ".tar" = false ∧ pySuffix "a/b.TXT" ≠ "" ∧
      extract_file_extension "a/b.TXT" = strLower (pySuffix "a/b.TXT")) ∧
    (pyEndsWith (pyStem "README") ".tar" = false ∧ pySuffix "README" = "" ∧
      extract_file_extension "README" = "no_extension") :=
  ⟨⟨by decide, (extract_file_extension_amended "x.tar.GZ").1 (by decide)⟩,
   ⟨by decide, by decide, (extract_file_extension_amended "a/b.TXT").2.1 (by decide)
      (by decide)⟩,
   ⟨by decide, by decide, (extract_file_extension_amended "README").2.2 (by decide)
      (by decide)⟩⟩

/-! ## Counter lemmas

The `collections.Counter` association list is characterized as the list of
first occurrences of its keys paired with their multiplicities. -/


theorem mem_foldl_keys {α : Type} [DecidableEq α] :
    ∀ (l : List α) (ks : List α) (x : α),
      x ∈ l.foldl (fun ks k => if k ∈ ks then ks else ks ++ [k]) ks ↔ x ∈ ks ∨ x ∈ l
  | [], ks, x => by simp
  | a :: l, ks, x => by
    rw [List.foldl_cons, mem_foldl_keys l]
    by_cases ha : a ∈ ks
    · rw [if_pos ha]
      constructor
      · rintro (h | h)
        · exact Or.inl h
        · exact Or.inr (by simp [h])
      · rintro (h | h)
        · exact Or.inl h
        · rcases List.mem_cons.mp h with rfl | h
          · exact Or.inl ha
          · exact Or.inr h
    · rw [if_neg ha]
      simp only [List.mem_append, List.mem_singleton, List.mem_cons]
      tauto

theorem mem_firstKeys {α : Type} [DecidableEq α] {l : List α} {x : α} :
    x ∈ firstKeys l ↔ x ∈ l := by
  rw [firstKeys, mem_foldl_keys]
  simp

theorem firstKeys_append_singleton {α : Type} [DecidableEq α] (l : List α) (a : α) :
    firstKeys (l ++ [a]) =
      if a ∈ firstKeys l then firstKeys l else firstKeys l ++ [a] := by
  rw [firstKeys, firstKeys, List.foldl_append]
  rfl

theorem counterOf_append_singleton {α : Type} [DecidableEq α] (l : List α) (a : α) :
    counterOf (l ++ [a]) = counterAdd (counterOf l) a := by
  rw [counterOf, counterOf, List.foldl_append]
  rfl

theorem counterOf_eq {α : Type} [DecidableEq α] (l : List α) :
    counterOf l = (firstKeys l).map (fun k => (k, l.count k)) := by
  induction l using List.reverseRecOn with
  | nil => rfl
  | append_singleton l a ih =>
    rw [counterOf_append_singleton, ih, firstKeys_append_singleton]
    by_cases ha : a ∈ firstKeys l
    · rw [if_pos ha, counterAdd, if_pos ?present]
      case present =>
        exact List.any_eq_true.mpr
          ⟨(a, l.count a), List.mem_map_of_mem _ ha, by simp⟩
      rw [List.map_map]
      refine List.map_congr_left (fun k hk => ?_)
      by_cases hka : k = a
      · subst hka
        simp [Function.comp, List.count_append]
      · simp [Function.comp, hka, List.count_append, List.count_singleton,
          fun h : a = k => hka h.symm]
    · rw [if_neg ha, counterAdd, if_neg ?absent]
      case absent =>
        intro hcon
        rcases List.any_eq_true.mp hcon with ⟨p, hp, hp2⟩
        rcases List.mem_map.mp hp with ⟨k, hk, rfl⟩
        simp only [decide_eq_true_eq] at hp2
        exact ha (hp2 ▸ hk)
      have hal : a ∉ l := fun h => ha (mem_firstKeys.mpr h)
      rw [List.map_append]
      congr 1
      · refine List.map_congr_left (fun k hk => ?_)
        have hka : ¬(a = k) := fun h => ha (h ▸ hk)
        simp [List.count_append, List.count_singleton, hka]
      · simp [List.count_append, List.count_eq_zero_of_not_mem hal]

theorem find?_fst_map {α : Type} [DecidableEq α] (v : α → Nat) :
    ∀ (ks : List α) (k : α), k ∈ ks →
      (ks.map (fun x => (x, v x))).find? (fun p => p.1 = k) = some (k, v k)
  | [], k, h => by simp at h
  | a :: ks, k, h => by
    by_cases hak : a = k
    · subst hak
      rw [List.map_cons, List.find?_cons_of_pos _ (by simp)]
    · rw [List.map_cons, List.find?_cons_of_neg _ (by simp [hak])]
      exact find?_fst_map v ks k (by
        rcases List.mem_cons.mp h with rfl | h
        · exact absurd rfl hak
        · exact h)

theorem counterGet_counterOf {α : Type} [DecidableEq α] (l : List α) (k : α) :
    counterGet (counterOf l) k = l.count k := by
  rw [counterOf_eq, counterGet]
  by_cases hk : k ∈ l
  · rw [find?_fst_map _ _ _ (mem_firstKeys.mpr hk)]
  · rw [List.find?_eq_none.mpr]
    · exact (List.count_eq_zero_of_not_mem hk).symm
    · intro x hx
      rcases List.mem_map.mp hx with ⟨k0, hk0, rfl⟩
      simp only [decide_eq_true_eq]
      intro hxk
      exact hk (hxk ▸ mem_firstKeys.mp hk0)

theorem mem_counterOf {α : Type} [DecidableEq α] {l : List α} {k : α} {n : Nat} :
    (k, n) ∈ counterOf l ↔ k ∈ l ∧ n = l.count k := by
  rw [counterOf_eq]
  constructor
  · intro h
    rcases List.mem_map.mp h with ⟨k0, hk0, heq⟩
    obtain ⟨rfl, rfl⟩ : k0 = k ∧ l.count k0 = n := by
      constructor
      · exact congrArg Prod.fst heq
      · exact congrArg Prod.snd heq
    exact ⟨mem_firstKeys.mp hk0, rfl⟩
  · rintro ⟨hk, rfl⟩
    exact List.mem_map.mpr ⟨k, mem_firstKeys.mpr hk, rfl⟩

/-! ## Pair-counting lemmas -/

theorem Item.not_pac_and_other (i : Item) :
    ¬(i.isPacTag = true ∧ i.isOtherTag = true) := by
  cases i <;> simp [Item.isPacTag, Item.isOtherTag]

theorem Item.ne_of_tags {a o : Item} (ha : a.isPacTag = true)
    (ho : o.isOtherTag = true) : a ≠ o := by
  intro h
  subst h
  exact Item.not_pac_and_other a ⟨ha, ho⟩

theorem pairsOf_mem : ∀ {t : List Item} {pr : Item × Item}, pr ∈ pairsOf t →
    pr.1 ∈ t ∧ pr.2 ∈ t ∧ pr.1.isPacTag = true ∧ pr.2.isOtherTag = true
  | [], pr, h => by simp [pairsOf] at h
  | x :: xs, pr, h => by
    rw [pairsOf] at h
    rcases List.mem_append.mp h with h | h
    · rcases List.mem_filterMap.mp h with ⟨y, hy, heq⟩
      by_cases h1 : x.isPacTag && y.isOtherTag
      · rw [if_pos h1] at heq
        rcases Bool.and_eq_true .. ▸ h1 with ⟨hx, hyo⟩
        cases heq
        exact ⟨by simp, by simp [hy], hx, hyo⟩
      · rw [if_neg h1] at heq
        by_cases h2 : y.isPacTag && x.isOtherTag
        · rw [if_pos h2] at heq
          rcases Bool.and_eq_true .. ▸ h2 with ⟨hyp, hxo⟩
          cases heq
          exact ⟨by simp [hy], by simp, hyp, hxo⟩
        · rw [if_neg h2] at heq
          simp at heq
    · have ih := pairsOf_mem h
      exact ⟨by simp [ih.1], by simp [ih.2.1], ih.2.2⟩

theorem count_filterMap {α β : Type} [BEq β] [LawfulBEq β] [DecidableEq β]
    (f : α → Option β) (b : β) :
    ∀ l : List α, (l.filterMap f).count b = l.countP (fun x => f x = some b)
  | [] => by simp
  | a :: l => by
    rw [List.filterMap_cons]
    cases hfa : f a with
    | none =>
      rw [count_filterMap f b l, List.countP_cons]
      simp [hfa]
    | some c =>
      rw [List.count_cons, count_filterMap f b l, List.countP_cons]
      simp [hfa, beq_iff_eq]

theorem pairsOf_count_zero_left {a o : Item} :
    ∀ {t : List Item}, a ∉ t → (pairsOf t).count (a, o) = 0 := by
  intro t ha
  refine List.count_eq_zero.mpr (fun hmem => ?_)
  exact ha (pairsOf_mem hmem).1

theorem pairsOf_count_zero_right {a o : Item} :
    ∀ {t : List Item}, o ∉ t → (pairsOf t).count (a, o) = 0 := by
  intro t ho
  refine List.count_eq_zero.mpr (fun hmem => ?_)
  exact ho (pairsOf_mem hmem).2.1

theorem countP_nodup_eq_ite {α : Type} [DecidableEq α] (o : α) :
    ∀ {xs : List α}, xs.Nodup → xs.countP (fun y => y = o) = if o ∈ xs then 1 else 0
  | [], _ => by simp
  | z :: zs, h => by
    have hz : z ∉ zs := (List.nodup_cons.mp h).1
    have hzs : zs.Nodup := (List.nodup_cons.mp h).2
    rw [List.countP_cons, countP_nodup_eq_ite o hzs]
    by_cases hzo : z = o
    · subst hzo
      simp [hz]
    · have hoz : ¬o = z := fun h => hzo h.symm
      simp [hzo, hoz]

theorem pairsOf_count {a o : Item} (ha : a.isPacTag = true) (ho : o.isOtherTag = true) :
    ∀ {t : List Item}, t.Nodup →
      (pairsOf t).count (a, o) = if a ∈ t ∧ o ∈ t then 1 else 0
  | [], _ => by simp [pairsOf]
  | x :: xs, hnd => by
    have hx : x ∉ xs := (List.nodup_cons.mp hnd).1
    have hxs : xs.Nodup := (List.nodup_cons.mp hnd).2
    have hao : a ≠ o := Item.ne_of_tags ha ho
    rw [pairsOf, List.count_append, count_filterMap]
    by_cases hxa : x = a
    · subst hxa
      have hcp : xs.countP (fun y =>
          (if x.isPacTag && y.isOtherTag then some (x, y)
           else if y.isPacTag && x.isOtherTag then some (y, x)
           else none) = some (x, o)) = xs.countP (fun y => y = o) := by
        refine List.countP_congr (fun y hy => ?_)
        simp only [decide_eq_true_eq]
        constructor
        · intro h
          by_cases h1 : x.isPacTag && y.isOtherTag
          · rw [if_pos h1] at h
            exact congrArg Prod.snd (Option.some.injEq .. ▸ h)
          · rw [if_neg h1] at h
            by_cases h2 : y.isPacTag && x.isOtherTag
            · rw [if_pos h2] at h
              rcases Bool.and_eq_true .. ▸ h2 with ⟨-, hxo⟩
              exact absurd ⟨ha, hxo⟩ (Item.not_pac_and_other x)
            · rw [if_neg h2] at h
              simp at h
        · rintro rfl
          rw [if_pos (by simp [ha, ho])]
      rw [hcp, countP_nodup_eq_ite o hxs, pairsOf_count_zero_left hx]
      by_cases hoxs : o ∈ xs
      · rw [if_pos hoxs,
          if_pos ⟨List.mem_cons_self x xs, List.mem_cons_of_mem x hoxs⟩]
      · rw [if_neg hoxs, if_neg]
        rintro ⟨-, hho⟩
        rcases List.mem_cons.mp hho with h | h
        · exact hao h.symm
        · exact hoxs h
    · by_cases hxo : x = o
      · subst hxo
        have hxp : x.isPacTag = false := by
          cases hb : x.isPacTag
          · rfl
          · exact absurd ⟨hb, ho⟩ (Item.not_pac_and_other x)
        have hcp : xs.countP (fun y =>
            (if x.isPacTag && y.isOtherTag then some (x, y)
             else if y.isPacTag && x.isOtherTag then some (y, x)
             else none) = some (a, x)) = xs.countP (fun y => y = a) := by
          refine List.countP_congr (fun y hy => ?_)
          simp only [decide_eq_true_eq, hxp, Bool.false_and, Bool.false_eq_true,
            if_false]
          constructor
          · intro h
            by_cases h2 : y.isPacTag && x.isOtherTag
            · rw [if_pos h2] at h
              exact congrArg Prod.fst (Option.some.injEq .. ▸ h)
            · rw [if_neg h2] at h
              simp at h
          · rintro rfl
            rw [if_pos (by simp [ha, ho])]
        rw [hcp, countP_nodup_eq_ite a hxs, pairsOf_count_zero_right hx]
        by_cases haxs : a ∈ xs
        · rw [if_pos haxs,
            if_pos ⟨List.mem_cons_of_mem x haxs, List.mem_cons_self x xs⟩]
        · rw [if_neg haxs, if_neg]
          rintro ⟨hha, -⟩
          rcases List.mem_cons.mp hha with h | h
          · exact hao h
          · exact haxs h
      · have hcp : xs.countP (fun y =>
            (if x.isPacTag && y.isOtherTag then some (x, y)
             else if y.isPacTag && x.isOtherTag then some (y, x)
             else none) = some (a, o)) = 0 := by
          rw [List.countP_eq_zero]
          intro y hy
          simp only [decide_eq_true_eq]
          intro h
          by_cases h1 : x.isPacTag && y.isOtherTag
          · rw [if_pos h1] at h
            exact hxa (congrArg Prod.fst (Option.some.injEq .. ▸ h))
          · rw [if_neg h1] at h
            by_cases h2 : y.isPacTag && x.isOtherTag
            · rw [if_pos h2] at h
              exact hxo (congrArg Prod.snd (Option.some.injEq .. ▸ h))
            · rw [if_neg h2] at h
              simp at h
        rw [hcp, pairsOf_count ha ho hxs]
        have hax : ¬a = x := fun h => hxa h.symm
        have hox : ¬o = x := fun h => hxo h.symm
        have hma : (a ∈ x :: xs) = (a ∈ xs) := by
          simp [List.mem_cons, hax]
        have hmo : (o ∈ x :: xs) = (o ∈ xs) := by
          simp [List.mem_cons, hox]
        simp only [hma, hmo]
        omega

/-! ## Transaction-level counting -/

theorem numTransBoth_cons (t : List Item) (ts : List (List Item)) (a o : Item) :
    numTransBoth (t :: ts) a o =
      (if a ∈ t ∧ o ∈ t then 1 else 0) + numTransBoth ts a o := by
  rw [numTransBoth, numTransBoth]
  by_cases h : a ∈ t ∧ o ∈ t
  · rw [List.filter_cons_of_pos (by simpa using h), if_pos h, List.length_cons]
    omega
  · rw [List.filter_cons_of_neg (by simpa using h), if_neg h]
    omega

theorem numTransWith_cons (t : List Item) (ts : List (List Item)) (a : Item) :
    numTransWith (t :: ts) a = (if a ∈ t then 1 else 0) + numTransWith ts a := by
  rw [numTransWith, numTransWith]
  by_cases h : a ∈ t
  · rw [List.filter_cons_of_pos (by simpa using h), if_pos h, List.length_cons]
    omega
  · rw [List.filter_cons_of_neg (by simpa using h), if_neg h]
    omega

theorem count_flatMap_pairs {a o : Item} (ha : a.isPacTag = true)
    (ho : o.isOtherTag = true) :
    ∀ {ts : List (List Item)}, (∀ t ∈ ts, t.Nodup) →
      (ts.flatMap pairsOf).count (a, o) = numTransBoth ts a o
  | [], _ => by simp [numTransBoth]
  | t :: ts, h => by
    rw [List.flatMap_cons, List.count_append, pairsOf_count ha ho (h t (by simp)),
      count_flatMap_pairs ha ho (fun u hu => h u (by simp [hu])), numTransBoth_cons]

theorem count_nodup_ite {t : List Item} (h : t.Nodup) (a : Item) :
    t.count a = if a ∈ t then 1 else 0 := by
  by_cases ha : a ∈ t
  · rw [List.count_eq_one_of_mem h ha, if_pos ha]
  · rw [List.count_eq_zero_of_not_mem ha, if_neg ha]

theorem count_flatMap_items (a : Item) :
    ∀ {ts : List (List Item)}, (∀ t ∈ ts, t.Nodup) →
      (ts.flatMap (fun t => t)).count a = numTransWith ts a
  | [], _ => by simp [numTransWith]
  | t :: ts, h => by
    rw [List.flatMap_cons, List.count_append, count_nodup_ite (h t (by simp)),
      count_flatMap_items a (fun u hu => h u (by simp [hu])), numTransWith_cons]

theorem transactionsOf_nodup (data : List CochangeEntry) :
    ∀ t ∈ transactionsOf data, t.Nodup := by
  intro t ht
  rcases List.mem_map.mp ht with ⟨d, _, rfl⟩
  exact List.nodup_dedup _

/-! ## Rule generation and its characterization -/

theorem mem_genRules {ic : List (Item × Nat)} {T : Nat} {msc : ℤ} {mc : ℚ} :
    ∀ {pcs : List ((Item × Item) × Nat)} {r : Rule},
      r ∈ genRules ic T msc mc pcs ↔
        ∃ a o cnt, ((a, o), cnt) ∈ pcs ∧
          (msc ≤ (cnt : ℤ) ∧ mc ≤ (cnt : ℚ) / (counterGet ic a : ℚ)) ∧
          r = mkRule ic T a o cnt
  | [], r => by simp [genRules]
  | ((a0, o0), c0) :: rest, r => by
    by_cases hcond : msc ≤ (c0 : ℤ) ∧ mc ≤ (c0 : ℚ) / (counterGet ic a0 : ℚ)
    · rw [genRules, if_pos hcond, List.singleton_append, List.mem_cons, mem_genRules]
      constructor
      · rintro (rfl | ⟨a, o, cnt, hmem, hcond2, rfl⟩)
        · exact ⟨a0, o0, c0, by simp, hcond, rfl⟩
        · exact ⟨a, o, cnt, by simp [hmem], hcond2, rfl⟩
      · rintro ⟨a, o, cnt, hmem, hcond2, rfl⟩
        rcases List.mem_cons.mp hmem with heq | hmem2
        · cases heq
          exact Or.inl rfl
        · exact Or.inr ⟨a, o, cnt, hmem2, hcond2, rfl⟩
    · rw [genRules, if_neg hcond, List.nil_append, mem_genRules]
      constructor
      · rintro ⟨a, o, cnt, hmem, hcond2, rfl⟩
        exact ⟨a, o, cnt, by simp [hmem], hcond2, rfl⟩
      · rintro ⟨a, o, cnt, hmem, hcond2, rfl⟩
        rcases List.mem_cons.mp hmem with heq | hmem2
        · cases heq
          exact absurd hcond2 hcond
        · exact ⟨a, o, cnt, hmem2, hcond2, rfl⟩

/-! ## The stable descending sort -/

theorem insertRuleDesc_perm (x : Rule) :
    ∀ l : List Rule, List.Perm (insertRuleDesc x l) (x :: l)
  | [] => List.Perm.refl _
  | y :: ys => by
    rw [insertRuleDesc]
    by_cases h : ruleKeyGE y x
    · rw [if_pos h]
      exact ((insertRuleDesc_perm x ys).cons y).trans (List.Perm.swap x y ys)
    · rw [if_neg h]

theorem foldl_insert_perm :
    ∀ (l acc : List Rule),
      List.Perm (l.foldl (fun acc x => insertRuleDesc x acc) acc) (acc ++ l)
  | [], acc => by simp
  | x :: l, acc => by
    rw [List.foldl_cons]
    refine (foldl_insert_perm l (insertRuleDesc x acc)).trans ?_
    refine ((insertRuleDesc_perm x acc).append_right l).trans ?_
    exact List.perm_middle.symm

theorem sortRulesDesc_perm (l : List Rule) : List.Perm (sortRulesDesc l) l := by
  simpa using foldl_insert_perm l []

theorem mem_sortRulesDesc {l : List Rule} {r : Rule} :
    r ∈ sortRulesDesc l ↔ r ∈ l :=
  (sortRulesDesc_perm l).mem_iff

theorem ruleKeyGE_total (x y : Rule) : ruleKeyGE x y = true ∨ ruleKeyGE y x = true := by
  rw [ruleKeyGE, ruleKeyGE, decide_eq_true_eq, decide_eq_true_eq]
  rcases lt_trichotomy x.confidence y.confidence with h | h | h
  · exact Or.inr (Or.inl h)
  · rcases le_total y.support x.support with hs | hs
    · exact Or.inl (Or.inr ⟨h, hs⟩)
    · exact Or.inr (Or.inr ⟨h.symm, hs⟩)
  · exact Or.inl (Or.inl h)

theorem ruleKeyGE_trans {x y z : Rule} (h1 : ruleKeyGE x y = true)
    (h2 : ruleKeyGE y z = true) : ruleKeyGE x z = true := by
  rw [ruleKeyGE, decide_eq_true_eq] at h1 h2 ⊢
  rcases h1 with h1 | ⟨h1e, h1s⟩ <;> rcases h2 with h2 | ⟨h2e, h2s⟩
  · exact Or.inl (h2.trans h1)
  · exact Or.inl (h2e ▸ h1)
  · exact Or.inl (by rw [h1e]; exact h2)
  · exact Or.inr ⟨h1e.trans h2e, h2s.trans h1s⟩

theorem ruleKeyLT_of_not_GE {y x : Rule} (h : ¬ruleKeyGE y x = true) :
    y.confidence < x.confidence ∨
      (y.confidence = x.confidence ∧ y.support < x.support) := by
  rw [ruleKeyGE, decide_eq_true_eq] at h
  push_neg at h
  rcases lt_trichotomy y.confidence x.confidence with hc | hc | hc
  · exact Or.inl hc
  · exact Or.inr ⟨hc, h.2 hc⟩
  · exact absurd hc (not_lt.mpr h.1)

theorem lt_of_GE_of_lt {z y x : Rule} (h1 : ruleKeyGE y z = true)
    (h2 : y.confidence < x.confidence ∨
      (y.confidence = x.confidence ∧ y.support < x.support)) :
    z.confidence < x.confidence ∨
      (z.confidence = x.confidence ∧ z.support < x.support) := by
  rw [ruleKeyGE, decide_eq_true_eq] at h1
  rcases h1 with h1 | ⟨h1e, h1s⟩ <;> rcases h2 with h2 | ⟨h2e, h2s⟩
  · exact Or.inl (h1.trans h2)
  · exact Or.inl (h2e ▸ h1)
  · exact Or.inl (by rw [← h1e]; exact h2)
  · exact Or.inr ⟨h1e.symm.trans h2e, lt_of_le_of_lt h1s h2s⟩

theorem pairwise_insertRuleDesc {x : Rule} :
    ∀ {l : List Rule}, l.Pairwise (fun a b => ruleKeyGE a b = true) →
      (insertRuleDesc x l).Pairwise (fun a b => ruleKeyGE a b = true)
  | [], _ => by simp [insertRuleDesc]
  | y :: ys, h => by
    rcases List.pairwise_cons.mp h with ⟨hy, hys⟩
    rw [insertRuleDesc]
    by_cases hxy : ruleKeyGE y x
    · rw [if_pos hxy]
      refine List.pairwise_cons.mpr ⟨?_, pairwise_insertRuleDesc hys⟩
      intro z hz
      rcases List.mem_cons.mp ((insertRuleDesc_perm x ys).mem_iff.mp hz) with rfl | hzys
      · exact hxy
      · exact hy z hzys
    · rw [if_neg hxy]
      refine List.pairwise_cons.mpr ⟨?_, h⟩
      intro z hz
      have hxyT : ruleKeyGE x y = true := by
        rcases ruleKeyGE_total x y with ht | ht
        · exact ht
        · exact absurd ht hxy
      rcases List.mem_cons.mp hz with rfl | hzys
      · exact hxyT
      · exact ruleKeyGE_trans hxyT (hy z hzys)

theorem pairwise_foldl_insert :
    ∀ (l acc : List Rule), acc.Pairwise (fun a b => ruleKeyGE a b = true) →
      (l.foldl (fun acc x => insertRuleDesc x acc) acc).Pairwise
        (fun a b => ruleKeyGE a b = true)
  | [], _, h => h
  | x :: l, acc, h => by
    rw [List.foldl_cons]
    exact pairwise_foldl_insert l _ (pairwise_insertRuleDesc h)

theorem pairwise_sortRulesDesc (l : List Rule) :
    (sortRulesDesc l).Pairwise (fun a b => ruleKeyGE a b = true) :=
  pairwise_foldl_insert l [] List.Pairwise.nil

theorem filter_insertRuleDesc (q s : ℚ) (x : Rule) :
    ∀ {l : List Rule}, l.Pairwise (fun a b => ruleKeyGE a b = true) →
      (insertRuleDesc x l).filter (fun r => r.confidence = q ∧ r.support = s) =
        (if x.confidence = q ∧ x.support = s then
          l.filter (fun r => r.confidence = q ∧ r.support = s) ++ [x]
        else l.filter (fun r => r.confidence = q ∧ r.support = s))
  | [], _ => by
    rw [insertRuleDesc]
    by_cases hx : x.confidence = q ∧ x.support = s
    · rw [if_pos hx]
      simp [hx]
    · rw [if_neg hx]
      simp [hx]
  | y :: ys, h => by
    rcases List.pairwise_cons.mp h with ⟨hy, hys⟩
    rw [insertRuleDesc]
    by_cases hxy : ruleKeyGE y x
    · rw [if_pos hxy]
      by_cases hyk : y.confidence = q ∧ y.support = s
      · rw [List.filter_cons_of_pos (by simpa using hyk),
          List.filter_cons_of_pos (by simpa using hyk),
          filter_insertRuleDesc q s x hys]
        by_cases hx : x.confidence = q ∧ x.support = s
        · rw [if_pos hx, if_pos hx]
          simp
        · rw [if_neg hx, if_neg hx]
      · rw [List.filter_cons_of_neg (by simpa using hyk),
          List.filter_cons_of_neg (by simpa using hyk),
          filter_insertRuleDesc q s x hys]
    · rw [if_neg hxy]
      have hlt := ruleKeyLT_of_not_GE hxy
      by_cases hx : x.confidence = q ∧ x.support = s
      · rw [if_pos hx, List.filter_cons_of_pos (by simpa using hx)]
        have hnil : (y :: ys).filter (fun r => r.confidence = q ∧ r.support = s)
            = [] := by
          rw [List.filter_eq_nil_iff]
          intro z hz
          have hzlt : z.confidence < x.confidence ∨
              (z.confidence = x.confidence ∧ z.support < x.support) := by
            rcases List.mem_cons.mp hz with rfl | hzys
            · exact hlt
            · exact lt_of_GE_of_lt (hy z hzys) hlt
          simp only [decide_eq_true_eq]
          rintro ⟨hc, hsu⟩
          rcases hx with ⟨hxc, hxs⟩
          rcases hzlt with hlt2 | ⟨he2, hs2⟩
          · rw [hc, hxc] at hlt2
            exact absurd hlt2 (lt_irrefl q)
          · rw [hsu, hxs] at hs2
            exact absurd hs2 (lt_irrefl s)
        rw [hnil]
        rfl
      · rw [if_neg hx, List.filter_cons_of_neg (by simpa using hx)]

theorem filter_foldl_insert (q s : ℚ) :
    ∀ (l acc : List Rule), acc.Pairwise (fun a b => ruleKeyGE a b = true) →
      (l.foldl (fun acc x => insertRuleDesc x acc) acc).filter
          (fun r => r.confidence = q ∧ r.support = s) =
        acc.filter (fun r => r.confidence = q ∧ r.support = s) ++
          l.filter (fun r => r.confidence = q ∧ r.support = s)
  | [], acc, _ => by simp
  | x :: l, acc, h => by
    rw [List.foldl_cons,
      filter_foldl_insert q s l _ (pairwise_insertRuleDesc h),
      filter_insertRuleDesc q s x h]
    by_cases hx : x.confidence = q ∧ x.support = s
    · rw [if_pos hx, List.filter_cons_of_pos (by simpa using hx)]
      simp
    · rw [if_neg hx, List.filter_cons_of_neg (by simpa using hx)]

theorem filter_sortRulesDesc (q s : ℚ) (l : List Rule) :
    (sortRulesDesc l).filter (fun r => r.confidence = q ∧ r.support = s) =
      l.filter (fun r => r.confidence = q ∧ r.support = s) := by
  simpa [sortRulesDesc] using filter_foldl_insert q s l [] List.Pairwise.nil

/-! ## Bridging the miner's counters to the spec-side quantities -/

theorem counterGet_items (data : List CochangeEntry) (a : Item) :
    counterGet (counterOf ((transactionsOf data).flatMap (fun t => t))) a =
      numTransWith (transactionsOf data) a := by
  rw [counterGet_counterOf]
  exact count_flatMap_items a (transactionsOf_nodup data)

theorem pairsList_count (data : List CochangeEntry) (pe oe : String) :
    ((transactionsOf data).flatMap pairsOf).count (Item.pacItem pe, Item.otherItem oe) =
      numTransBoth (transactionsOf data) (Item.pacItem pe) (Item.otherItem oe) :=
  @count_flatMap_pairs (Item.pacItem pe) (Item.otherItem oe) rfl rfl
    (transactionsOf data) (transactionsOf_nodup data)

theorem pairCount_instances (pr : Item × Item) (l : List (Item × Item)) :
    @List.count _ instBEqOfDecidableEq pr l = l.count pr := by
  show l.countP (fun x => @BEq.beq _ instBEqOfDecidableEq x pr) =
    l.countP (fun x => x == pr)
  refine List.countP_congr (fun x hx => ?_)
  show (decide (x = pr) = true) ↔ ((x == pr) = true)
  simp [beq_iff_eq]

theorem mkRule_eq_specRule (data : List CochangeEntry) (pe oe : String) :
    mkRule (counterOf ((transactionsOf data).flatMap (fun t => t)))
      (transactionsOf data).length (Item.pacItem pe) (Item.otherItem oe)
      (numTransBoth (transactionsOf data) (Item.pacItem pe) (Item.otherItem oe)) =
      specRule (transactionsOf data) pe oe := by
  simp only [mkRule, specRule, Item.toStr, counterGet_items]

theorem pos_of_conf {cnt na : Nat} {mc : ℚ} (hmc : 0 < mc)
    (hle : mc ≤ (cnt : ℚ) / (na : ℚ)) : 0 < cnt ∧ 0 < na := by
  have hpos : 0 < (cnt : ℚ) / (na : ℚ) := lt_of_lt_of_le hmc hle
  constructor
  · by_contra h
    push_neg at h
    have hz : cnt = 0 := Nat.le_zero.mp h
    rw [hz] at hpos
    simp at hpos
  · by_contra h
    push_neg at h
    have hz : na = 0 := Nat.le_zero.mp h
    rw [hz] at hpos
    simp at hpos

/-- C3.  For every (PaC-extension, other-extension) pair, the rule with the
spec's metrics is in the miner's output iff its transaction count reaches
the floored support threshold and its confidence reaches the confidence
threshold; and every output rule is such a PaC→other rule. -/
theorem mine_association_rules_retention_iff (data : List CochangeEntry)
    (minSupport minConfidence : ℚ) (hmc : 0 < minConfidence) (pe oe : String) :
    ((specRule (transactionsOf data) pe oe ∈
        mine_association_rules data minSupport minConfidence) ↔
      (pyIntOfRat (minSupport * ((transactionsOf data).length : ℚ)) ≤
          (numTransBoth (transactionsOf data) (Item.pacItem pe) (Item.otherItem oe) : ℤ) ∧
        minConfidence ≤
          (numTransBoth (transactionsOf data) (Item.pacItem pe) (Item.otherItem oe) : ℚ) /
            (numTransWith (transactionsOf data) (Item.pacItem pe) : ℚ))) ∧
    (∀ r ∈ mine_association_rules data minSupport minConfidence,
      ∃ pe2 oe2, r = specRule (transactionsOf data) pe2 oe2) := by
  by_cases hts : transactionsOf data = []
  · have hmine : mine_association_rules data minSupport minConfidence = [] := by
      rw [mine_association_rules, mineRulesUnsorted, if_pos hts]
      rfl
    refine ⟨⟨fun h => absurd h (by simp [hmine]), ?_⟩, ?_⟩
    · rintro ⟨-, h2⟩
      rw [hts] at h2
      have hz : numTransBoth ([] : List (List Item)) (Item.pacItem pe)
          (Item.otherItem oe) = 0 := rfl
      rw [hz] at h2
      simp only [Nat.cast_zero, zero_div] at h2
      exact absurd (lt_of_lt_of_le hmc h2) (by simp)
    · intro r hr
      rw [hmine] at hr
      simp at hr
  · have hmine : mine_association_rules data minSupport minConfidence =
        sortRulesDesc (genRules
          (counterOf ((transactionsOf data).flatMap (fun t => t)))
          (transactionsOf data).length
          (pyIntOfRat (minSupport * ((transactionsOf data).length : ℚ)))
          minConfidence
          (counterOf ((transactionsOf data).flatMap pairsOf))) := by
      rw [mine_association_rules, mineRulesUnsorted, if_neg hts]
    refine ⟨⟨?_, ?_⟩, ?_⟩
    · intro hmem
      rw [hmine, mem_sortRulesDesc, mem_genRules] at hmem
      obtain ⟨a, o, cnt, hpc, ⟨hc1, hc2⟩, heqr⟩ := hmem
      have hcnt : cnt = numTransBoth (transactionsOf data) (Item.pacItem pe)
          (Item.otherItem oe) := by
        have := congrArg Rule.count heqr
        simpa [specRule, mkRule] using this.symm
      have hna : counterGet (counterOf ((transactionsOf data).flatMap (fun t => t))) a =
          numTransWith (transactionsOf data) (Item.pacItem pe) := by
        have := congrArg Rule.antecedent_count heqr
        simpa [specRule, mkRule] using this.symm
      constructor
      · rw [← hcnt]
        exact hc1
      · rw [← hcnt, ← hna]
        exact hc2
    · rintro ⟨h1, h2⟩
      have hpos := pos_of_conf hmc h2
      have hcnt' := pairsList_count data pe oe
      have hmempair : (Item.pacItem pe, Item.otherItem oe) ∈
          (transactionsOf data).flatMap pairsOf := by
        rw [← List.count_pos_iff, hcnt']
        exact hpos.1
      rw [hmine, mem_sortRulesDesc, mem_genRules]
      refine ⟨Item.pacItem pe, Item.otherItem oe,
        numTransBoth (transactionsOf data) (Item.pacItem pe) (Item.otherItem oe),
        mem_counterOf.mpr ⟨hmempair, ((pairCount_instances _ _).trans hcnt').symm⟩,
        ⟨h1, ?_⟩,
        (mkRule_eq_specRule data pe oe).symm⟩
      rw [counterGet_items]
      exact h2
    · intro r hr
      rw [hmine, mem_sortRulesDesc, mem_genRules] at hr
      obtain ⟨a, o, cnt, hpc, -, rfl⟩ := hr
      obtain ⟨hpl, hcnt⟩ := mem_counterOf.mp hpc
      rcases List.mem_flatMap.mp hpl with ⟨t, -, hpt⟩
      have htags := pairsOf_mem hpt
      cases a with
      | otherItem e =>
        exact absurd htags.2.2.1 (by simp [Item.isPacTag])
      | pacItem pe2 =>
        cases o with
        | pacItem e =>
          exact absurd htags.2.2.2 (by simp [Item.isOtherTag])
        | otherItem oe2 =>
          refine ⟨pe2, oe2, ?_⟩
          have hcnt2 : cnt = numTransBoth (transactionsOf data) (Item.pacItem pe2)
              (Item.otherItem oe2) := by
            rw [hcnt, pairCount_instances, pairsList_count]
          rw [hcnt2, mkRule_eq_specRule]


/-- Witness for C3 at the sample dataset with `min_confidence = 1 > 0`. -/
theorem mine_association_rules_retention_iff_witness :
    (0 : ℚ) < 1 ∧
    ((specRule (transactionsOf sampleCochange) ".rego" ".yaml" ∈
        mine_association_rules sampleCochange 0 1) ↔
      (pyIntOfRat (0 * ((transactionsOf sampleCochange).length : ℚ)) ≤
          (numTransBoth (transactionsOf sampleCochange) (Item.pacItem ".rego")
            (Item.otherItem ".yaml") : ℤ) ∧
        (1 : ℚ) ≤
          (numTransBoth (transactionsOf sampleCochange) (Item.pacItem ".rego")
            (Item.otherItem ".yaml") : ℚ) /
            (numTransWith (transactionsOf sampleCochange) (Item.pacItem ".rego") : ℚ))) :=
  ⟨zero_lt_one,
   (mine_association_rules_retention_iff sampleCochange 0 1 zero_lt_one
     ".rego" ".yaml").1⟩

/-- C4.  The miner's output is the generated rule list sorted by
`(confidence, support)` descending, and the sort is stable: for every key
the tied rules appear in exactly their generation order. -/
theorem mine_association_rules_sorted_stable (data : List CochangeEntry)
    (ms mc q s : ℚ) :
    (mine_association_rules data ms mc).Pairwise (fun x y =>
      y.confidence < x.confidence ∨
        (x.confidence = y.confidence ∧ y.support ≤ x.support)) ∧
    List.Perm (mine_association_rules data ms mc) (mineRulesUnsorted data ms mc) ∧
    (mine_association_rules data ms mc).filter
        (fun r => r.confidence = q ∧ r.support = s) =
      (mineRulesUnsorted data ms mc).filter
        (fun r => r.confidence = q ∧ r.support = s) := by
  refine ⟨?_, sortRulesDesc_perm _, filter_sortRulesDesc q s _⟩
  refine (pairwise_sortRulesDesc (mineRulesUnsorted data ms mc)).imp ?_
  intro a b h
  rw [ruleKeyGE, decide_eq_true_eq] at h
  exact h

theorem genRules_length_mono (ic : List (Item × Nat)) (T : Nat) (msc : ℤ)
    {c1 c2 : ℚ} (h : c1 ≤ c2) :
    ∀ pcs : List ((Item × Item) × Nat),
      (genRules ic T msc c2 pcs).length ≤ (genRules ic T msc c1 pcs).length
  | [] => le_refl _
  | ((a, o), cnt) :: rest => by
    by_cases h2 : msc ≤ (cnt : ℤ) ∧ c2 ≤ (cnt : ℚ) / (counterGet ic a : ℚ)
    · have h1 : msc ≤ (cnt : ℤ) ∧ c1 ≤ (cnt : ℚ) / (counterGet ic a : ℚ) :=
        ⟨h2.1, le_trans h h2.2⟩
      rw [genRules, if_pos h2, genRules, if_pos h1, List.singleton_append,
        List.singleton_append, List.length_cons, List.length_cons]
      exact Nat.succ_le_succ (genRules_length_mono ic T msc h rest)
    · rw [genRules, if_neg h2, List.nil_append, genRules]
      refine le_trans (genRules_length_mono ic T msc h rest) ?_
      rw [List.length_append]
      omega

/-- C8.  With the data and `min_support` fixed, raising `min_confidence`
never increases the number of retained rules. -/
theorem mine_association_rules_conf_monotone (data : List CochangeEntry)
    (ms c1 c2 : ℚ) (h : c1 ≤ c2) :
    (mine_association_rules data ms c2).length ≤
      (mine_association_rules data ms c1).length := by
  rw [mine_association_rules, mine_association_rules,
    (sortRulesDesc_perm _).length_eq, (sortRulesDesc_perm _).length_eq,
    mineRulesUnsorted, mineRulesUnsorted]
  by_cases hts : transactionsOf data = []
  · rw [if_pos hts, if_pos hts]
  · rw [if_neg hts, if_neg hts]
    exact genRules_length_mono _ _ _ h _

/-- Witness for C8 with thresholds 0 ≤ 1 on the sample dataset. -/
theorem mine_association_rules_conf_monotone_witness :
    (0 : ℚ) ≤ 1 ∧
    (mine_association_rules sampleCochange 0 1).length ≤
      (mine_association_rules sampleCochange 0 0).length :=
  ⟨zero_le_one, mine_association_rules_conf_monotone sampleCochange 0 0 1 zero_le_one⟩

/-- C10.  When no input entry has both a non-empty PaC-extension set and a
non-empty other-extension set, the transaction database is empty and the
miner returns the empty list through its early guard, before any division
by `total_transactions` or by an antecedent count. -/
theorem mine_association_rules_no_transactions (data : List CochangeEntry)
    (ms mc : ℚ) (h : ∀ d ∈ data, d.pac_extensions = [] ∨ d.other_extensions = []) :
    transactionsOf data = [] ∧ mine_association_rules data ms mc = [] := by
  have hts : transactionsOf data = [] := by
    rw [transactionsOf, List.filter_eq_nil_iff.mpr, List.map_nil]
    intro d hd
    simp only [decide_eq_true_eq]
    rintro ⟨h1, h2⟩
    rcases h d hd with h3 | h3
    · exact h1 h3
    · exact h2 h3
  refine ⟨hts, ?_⟩
  rw [mine_association_rules, mineRulesUnsorted, if_pos hts]
  rfl


/-- Witness for C10 on a dataset whose only entry has no other-extensions. -/
theorem mine_association_rules_no_transactions_witness :
    (∀ d ∈ [pacOnlyEntry], d.pac_extensions = [] ∨ d.other_extensions = []) ∧
    (transactionsOf [pacOnlyEntry] = [] ∧
      mine_association_rules [pacOnlyEntry] 0 0 = []) :=
  ⟨by decide,
   mine_association_rules_no_transactions [pacOnlyEntry] 0 0 (by decide)⟩

end PaCM
